import Mathlib

/-
Verification of the per-frame effect pipeline of `process_video.py`.

The pipeline (function `effect` produced by `frame_effect_factory`) applies, in
order: chromatic aberration (np.roll of the R and B channels), a linear
contrast/brightness map, additive film grain, a PIL unsharp mask, alpha
compositing of a precomputed scanline overlay, and multiplication by a
precomputed vignette mask.

Modelling conventions:
* An image is a map from (row, column, channel) to an integer sample; the
  source stores uint8 / int16 numpy arrays, whose values we carry as ℤ with
  explicit clamps and an explicit 16-bit wrap where numpy would wrap.
* numpy float64 scalar constants (1.06, intensity, strength) are carried as
  exact rationals or reals.  For the contrast stage, exact 53/50 arithmetic
  followed by truncation yields the same 8-bit outputs as float64 1.06 on all
  inputs 0..255 (the only products that land on integers, at in−128 a
  multiple of 50, round back to the exact integer in float64).
* `np.sqrt` in the vignette mask is modelled by `Real.sqrt`.
* The Gaussian blur used inside PIL's UnsharpMask has no kernel specified in
  the source or the spec; it is a parameter `B`, constrained only where a
  claim needs it (a blur of an 8-bit image stays 8-bit).
-/

namespace ProcessVideo

/-- An image sample store: row, column, channel ↦ sample value (carried in ℤ). -/
def Img : Type := ℕ → ℕ → ℕ → ℤ

/-- Clamp a rational to [0, 255], as `np.clip(x, 0, 255)` does. -/
def clip8 (x : ℚ) : ℚ := min 255 (max 0 x)

/-- Clamp an integer to [0, 255], as `np.clip(x, 0, 255)` on integer arrays. -/
def clamp8Z (x : ℤ) : ℤ := min 255 (max 0 x)

/-- Python `int(q)` — truncation toward zero. -/
def pyInt (q : ℚ) : ℤ := if q < 0 then ⌈q⌉ else ⌊q⌋

/-- The chromatic-aberration shift: `shift = max(1, width // 640 * 2)`. -/
def shiftVal (w : ℕ) : ℕ := max 1 (w / 640 * 2)

/-- One row of `np.roll(a, s, axis=1)`: output column x holds input column
(x − s) mod w. -/
def npRoll (w : ℕ) (row : ℕ → ℤ) (s : ℤ) : ℕ → ℤ :=
  fun x => row (((x : ℤ) - s) % (w : ℤ)).toNat

/-- Stage 1, chromatic aberration: red rolled by −shift, green kept, blue
rolled by +shift, then stacked (`r = np.roll(img[:,:,0], -shift, axis=1)`,
`b = np.roll(img[:,:,2], shift, axis=1)`). -/
def chromAb (w : ℕ) (img : Img) : Img := fun y x c =>
  if c = 0 then npRoll w (fun t => img y t 0) (-(shiftVal w : ℤ)) x
  else if c = 2 then npRoll w (fun t => img y t 2) ((shiftVal w : ℤ)) x
  else img y x c

/-- Stage 2 on one sample: `128 + 1.06 * (v - 128) + 4`, clipped to [0,255],
then truncated to uint8 (truncation = floor on the clipped nonnegative value).
Float64 1.06 is modelled by the exact rational 53/50; see the header comment. -/
def contrastSample (v : ℤ) : ℤ := ⌊clip8 (128 + 53/50 * ((v : ℚ) - 128) + 4)⌋

/-- Stage 2, contrast/brightness, applied to every sample of every channel. -/
def contrastStage (img : Img) : Img := fun y x c => contrastSample (img y x c)

/-- Wrap an integer into int16 range, as numpy int16 addition does. -/
def wrap16 (z : ℤ) : ℤ := (z + 32768) % 65536 - 32768

/-- Stage 3, film grain: `np.clip(combined.astype(np.int16) + noise, 0, 255)`.
The noise draw is an explicit parameter (ambient randomness made explicit);
its values are int16 by dtype.  The int16 addition wraps before the clip. -/
def grainStage (noise : Img) (img : Img) : Img := fun y x c =>
  clamp8Z (wrap16 (img y x c + noise y x c))

/-- Modelled from the spec: one sample of PIL's `ImageFilter.UnsharpMask`
(§4.3 stage 4): where |original − blurred| exceeds the threshold, add back
percent/100 times the difference, clamped to [0,255]; elsewhere keep the
original.  The blurred value is supplied by the caller. -/
def unsharpSample (threshold : ℤ) (percent : ℚ) (orig blurred : ℤ) : ℤ :=
  if threshold < |orig - blurred| then
    clamp8Z (orig + round (percent * ((orig : ℚ) - blurred)))
  else orig

/-- Stage 4, unsharp mask with the pipeline's radius-1 blur `B`,
percent = 120, threshold = 3. -/
def unsharpStage (blurred : Img) (img : Img) : Img := fun y x c =>
  unsharpSample 3 (120/100) (img y x c) (blurred y x c)

/-- Modelled from the spec: one channel of the alpha "over" composite
(§4.3 stage 5) of a source sample with alpha `srcA` over an opaque
destination sample: `(src·a + dst·(255 − a)) / 255`, rounded to 8-bit. -/
def compositeSample (srcRgb srcA dst : ℤ) : ℤ :=
  round (((srcRgb * srcA + dst * (255 - srcA) : ℤ) : ℚ) / 255)

/-- Stage 5, scanline compositing: the scanline overlay is black (its RGB is
zero everywhere, and a blur of zero stays zero), so only its (blurred) alpha
`scanA` matters; the base is opaque. -/
def scanStage (scanA : ℕ → ℕ → ℤ) (img : Img) : Img := fun y x c =>
  compositeSample 0 (scanA y x) (img y x c)

/-- Distance of pixel (x, y) from the frame center (w/2, h/2), as
`np.sqrt((X - cx)**2 + (Y - cy)**2)`. -/
noncomputable def pixDist (w h : ℕ) (x y : ℕ) : ℝ :=
  Real.sqrt (((x : ℝ) - w / 2) ^ 2 + ((y : ℝ) - h / 2) ^ 2)

/-- The vignette mask of `make_vignette_mask`: value
`clip(1 - strength * dist / max_dist, 0, 1)` at pixel (x, y). -/
noncomputable def vignMask (w h : ℕ) (strength : ℝ) (x y : ℕ) : ℝ :=
  min 1 (max 0 (1 - strength * (pixDist w h x y / Real.sqrt ((w / 2 : ℝ) ^ 2 + (h / 2 : ℝ) ^ 2))))

/-- The three-channel mask `np.dstack([vign, vign, vign])`: the same scalar
broadcast to every channel. -/
noncomputable def vignMask3 (w h : ℕ) (strength : ℝ) (x y c : ℕ) : ℝ :=
  vignMask w h strength x y

/-- Stage 6 on one sample: `arr/255 * mask * 255`, clipped to [0,255] and
truncated to uint8. -/
noncomputable def vignetteSample (m : ℝ) (v : ℤ) : ℤ :=
  ⌊min 255 (max 0 ((v : ℝ) / 255 * m * 255))⌋

/-- Stage 6, vignette multiplication by a per-pixel mask. -/
noncomputable def vignetteStage (mask : ℕ → ℕ → ℝ) (img : Img) : Img := fun y x c =>
  vignetteSample (mask x y) (img y x c)

/-- Stages 1–5 of `effect` (the integer-valued part of the pipeline), with the
grain noise, the unsharp-mask blur and the blurred scanline alpha passed
explicitly. -/
def effectPre (w : ℕ) (noise : Img) (B : Img → Img) (scanA : ℕ → ℕ → ℤ) (img : Img) : Img :=
  let s3 := grainStage noise (contrastStage (chromAb w img))
  scanStage scanA (unsharpStage (B s3) s3)

/-- The whole per-frame transform `effect`, with the factory's vignette
strength 0.45. -/
noncomputable def effectImg (w h : ℕ) (noise : Img) (B : Img → Img)
    (scanA : ℕ → ℕ → ℤ) (img : Img) : Img :=
  vignetteStage (vignMask w h (9 / 20)) (effectPre w noise B scanA img)

/-! ### Claim C1: the contrast/brightness stage -/

/-- C1: every 8-bit sample v of every channel is mapped by the
contrast/brightness stage to clamp(128 + 1.06·(v − 128) + 4, 0, 255)
truncated to 8-bit, and on a uniform (128,128,128) frame every sample equals
132 after this stage, the preceding channel rotation being the identity on a
horizontally uniform frame. -/
theorem contrast_formula_and_uniform_gray (w : ℕ) (img : Img)
    (huniform : ∀ y x c, img y x c = 128) :
    (∀ (j : Img) (y x c : ℕ),
        contrastStage j y x c = ⌊min 255 (max 0 ((128 : ℚ) + 53/50 * ((j y x c : ℚ) - 128) + 4))⌋) ∧
    (∀ y x c, contrastStage (chromAb w img) y x c = 132) := by
  constructor
  · intro j y x c
    rfl
  · intro y x c
    have hshift : ∀ y x c, chromAb w img y x c = 128 := by
      intro y x c
      unfold chromAb npRoll
      split
      · exact huniform _ _ _
      · split
        · exact huniform _ _ _
        · exact huniform _ _ _
    show contrastSample (chromAb w img y x c) = 132
    rw [hshift]
    unfold contrastSample clip8
    norm_num

/-- Witness for C1 at a concrete uniform gray frame. -/
theorem contrast_formula_and_uniform_gray_witness :
    contrastStage (chromAb 2 (fun _ _ _ => 128)) 0 0 0 = 132 :=
  (contrast_formula_and_uniform_gray 2 (fun _ _ _ => 128) (fun _ _ _ => rfl)).2 0 0 0

/-! ### Claim C2: chromatic aberration -/

/-- C2: shift = max(1, 2·⌊w/640⌋); the red value at column c moves to column
(c − shift) mod w, the green channel is unchanged, and the blue value at
column c moves to column (c + shift) mod w, wrapping around. -/
theorem chromAb_rotation (w : ℕ) (img : Img) (y col : ℕ)
    (hw : 0 < w) (hcol : col < w) :
    (shiftVal w : ℤ) = max 1 (2 * ((w : ℤ) / 640)) ∧
    chromAb w img y ((((col : ℤ) - shiftVal w) % (w : ℤ)).toNat) 0 = img y col 0 ∧
    chromAb w img y col 1 = img y col 1 ∧
    chromAb w img y ((((col : ℤ) + shiftVal w) % (w : ℤ)).toNat) 2 = img y col 2 := by
  have hwz : (0 : ℤ) < (w : ℤ) := by exact_mod_cast hw
  have hcolz : (col : ℤ) < (w : ℤ) := by exact_mod_cast hcol
  refine ⟨?_, ?_, ?_, ?_⟩
  · unfold shiftVal
    push_cast [Int.ofNat_ediv]
    rw [mul_comm]
  · set s : ℤ := (shiftVal w : ℤ) with hs
    have h0 : (0 : ℤ) ≤ ((col : ℤ) - s) % (w : ℤ) := Int.emod_nonneg _ (by omega)
    have h1 : ((col : ℤ) - s) % (w : ℤ) < (w : ℤ) := Int.emod_lt_of_pos _ hwz
    show npRoll w (fun t => img y t 0) (-s) ((((col : ℤ) - s) % (w : ℤ)).toNat) = img y col 0
    unfold npRoll
    have hcast : (((((col : ℤ) - s) % (w : ℤ)).toNat : ℤ)) = ((col : ℤ) - s) % (w : ℤ) :=
      Int.toNat_of_nonneg h0
    rw [hcast, sub_neg_eq_add]
    have : (((col : ℤ) - s) % (w : ℤ) + s) % (w : ℤ) = (col : ℤ) := by
      rw [Int.add_emod, Int.emod_emod_of_dvd _ dvd_rfl, ← Int.add_emod, sub_add_cancel]
      exact Int.emod_eq_of_lt (by omega) hcolz
    rw [this]
    simp
  · unfold chromAb
    norm_num
  · set s : ℤ := (shiftVal w : ℤ) with hs
    have h0 : (0 : ℤ) ≤ ((col : ℤ) + s) % (w : ℤ) := Int.emod_nonneg _ (by omega)
    show npRoll w (fun t => img y t 2) s ((((col : ℤ) + s) % (w : ℤ)).toNat) = img y col 2
    unfold npRoll
    have hcast : (((((col : ℤ) + s) % (w : ℤ)).toNat : ℤ)) = ((col : ℤ) + s) % (w : ℤ) :=
      Int.toNat_of_nonneg h0
    rw [hcast]
    have : (((col : ℤ) + s) % (w : ℤ) - s) % (w : ℤ) = (col : ℤ) := by
      rw [Int.sub_emod, Int.emod_emod_of_dvd _ dvd_rfl, ← Int.sub_emod, add_sub_cancel_right]
      exact Int.emod_eq_of_lt (by omega) hcolz
    rw [this]
    simp

/-- Witness for C2 at a concrete width and column. -/
theorem chromAb_rotation_witness :
    (0 < 2 ∧ 0 < 2) ∧
    chromAb 2 (fun _ x _ => (x : ℤ)) 0
      ((((0 : ℕ) : ℤ) - shiftVal 2) % ((2 : ℕ) : ℤ)).toNat 0 = (fun _ x _ => (x : ℤ)) 0 0 0 :=
  ⟨⟨by decide, by decide⟩,
    (chromAb_rotation 2 (fun _ x _ => (x : ℤ)) 0 0 (by decide) (by decide)).2.1⟩

/-! ### Scanline mask generator (`make_scanline_image`) -/

/-- The drawing loop of `make_scanline_image`, fuel-indexed: starting at row
`y`, while `y < h`, draw a band covering rows `y .. min (h-1) (y+lh-1)`
(`draw.rectangle([0, y, w, min(h, y + line_height - 1)])` fills both endpoint
rows, clipped to the image), then advance `y` by `line_height + gap`.  The
fuel bounds the number of iterations; `scanBands` shows `h` iterations
always suffice when `line_height ≥ 1`. -/
def scanBandsAux (lh gap h : ℕ) : ℕ → ℕ → List (ℕ × ℕ)
  | 0, _ => []
  | fuel + 1, y =>
    if y < h then (y, min (h - 1) (y + lh - 1)) :: scanBandsAux lh gap h fuel (y + (lh + gap))
    else []

/-- The full list of drawn bands (fuel `h` from row 0). -/
def scanBands (lh gap h : ℕ) : List (ℕ × ℕ) := scanBandsAux lh gap h h 0

/-- Row `r` lies inside band `b` (bands span all columns). -/
def covers (b : ℕ × ℕ) (r : ℕ) : Prop := b.1 ≤ r ∧ r ≤ b.2

instance (b : ℕ × ℕ) (r : ℕ) : Decidable (covers b r) := by
  unfold covers; infer_instance

/-- The alpha channel of the scanline image at row `r`, before the Gaussian
blur: `int(255 * intensity)` on drawn bands (the RGBA image is initialized
fully transparent, and bands are filled with `(0,0,0,alpha_line)`), else 0. -/
def scanAlpha (intensity : ℚ) (lh gap h : ℕ) (r : ℕ) : ℤ :=
  if ∃ b ∈ scanBands lh gap h, covers b r then pyInt (255 * intensity) else 0

/-- Exhausted rows produce no band, whatever the fuel. -/
theorem scanBandsAux_of_le (lh gap h : ℕ) (fuel y : ℕ) (hy : h ≤ y) :
    scanBandsAux lh gap h fuel y = [] := by
  cases fuel with
  | zero => rfl
  | succ n => unfold scanBandsAux; rw [if_neg (by omega)]

/-- The loop result does not depend on the fuel once the fuel covers the
remaining rows: each iteration advances the row counter by
`lh + gap ≥ 1`. -/
theorem scanBandsAux_fuel_invariant (lh gap h : ℕ) (hlh : 1 ≤ lh) :
    ∀ fuel fuel' y, h ≤ y + fuel → h ≤ y + fuel' →
      scanBandsAux lh gap h fuel y = scanBandsAux lh gap h fuel' y := by
  intro fuel
  induction fuel with
  | zero =>
    intro fuel' y hy _
    rw [scanBandsAux_of_le lh gap h 0 y (by omega),
      scanBandsAux_of_le lh gap h fuel' y (by omega)]
  | succ n ih =>
    intro fuel' y hy hy'
    by_cases hcase : y < h
    · cases fuel' with
      | zero => omega
      | succ m =>
        unfold scanBandsAux
        rw [if_pos hcase, if_pos hcase]
        congr 1
        exact ih m (y + (lh + gap)) (by omega) (by omega)
    · rw [scanBandsAux_of_le lh gap h (n + 1) y (by omega),
        scanBandsAux_of_le lh gap h fuel' y (by omega)]

/-- C10: the band-filling loop of the scanline generator terminates: for
lineHeight ≥ 1 and any gap, the running row offset strictly increases by
lineHeight + gap ≥ 1 per iteration, so h iterations of fuel always reach the
exit — any larger fuel computes the very same band list. -/
theorem scanline_loop_terminates (lh gap h fuel : ℕ)
    (hh : 0 < h) (hlh : 1 ≤ lh) (hfuel : h ≤ fuel) :
    scanBandsAux lh gap h fuel 0 = scanBands lh gap h := by
  exact scanBandsAux_fuel_invariant lh gap h hlh fuel h 0 (by omega) (by omega)

/-- Witness for C10: with lineHeight 1, gap 2, height 4, fuel 9 the loop
computes the same bands as with fuel 4. -/
theorem scanline_loop_terminates_witness :
    (0 < 4 ∧ 1 ≤ 1 ∧ 4 ≤ 9) ∧ scanBandsAux 1 2 4 9 0 = scanBands 1 2 4 :=
  ⟨⟨by decide, by decide, by decide⟩,
    scanline_loop_terminates 1 2 4 9 (by decide) (by decide) (by decide)⟩

/-- Characterization of band coverage: starting the loop at row `y` with
enough fuel, row `r < h` is covered exactly when `y ≤ r` and the offset
`r − y` lands within the first `lh` rows of a period `lh + gap`. -/
theorem scanBandsAux_covers (lh gap h : ℕ) (hlh : 1 ≤ lh) :
    ∀ fuel y r, h ≤ y + fuel → r < h →
      ((∃ b ∈ scanBandsAux lh gap h fuel y, covers b r) ↔
        (y ≤ r ∧ (r - y) % (lh + gap) < lh)) := by
  intro fuel
  induction fuel with
  | zero =>
    intro y r hy hr
    rw [scanBandsAux_of_le lh gap h 0 y (by omega)]
    simp only [List.not_mem_nil, false_and, exists_false, false_iff]
    omega
  | succ n ih =>
    intro y r hy hr
    by_cases hcase : y < h
    · unfold scanBandsAux
      rw [if_pos hcase]
      simp only [List.mem_cons, exists_eq_or_imp]
      rw [ih (y + (lh + gap)) r (by omega) hr]
      unfold covers
      simp only
      constructor
      · rintro (⟨h1, h2⟩ | ⟨h1, h2⟩)
        · have hry : r - y < lh := by omega
          have : (r - y) % (lh + gap) = r - y := Nat.mod_eq_of_lt (by omega)
          omega
        · have hsub : (r - y) % (lh + gap) = (r - (y + (lh + gap))) % (lh + gap) := by
            have : r - y - (lh + gap) = r - (y + (lh + gap)) := by omega
            rw [Nat.mod_eq_sub_mod (by omega), this]
          omega
      · rintro ⟨hyr, hmod⟩
        by_cases hsmall : r < y + (lh + gap)
        · left
          have : (r - y) % (lh + gap) = r - y := Nat.mod_eq_of_lt (by omega)
          omega
        · right
          have hsub : (r - y) % (lh + gap) = (r - (y + (lh + gap))) % (lh + gap) := by
            have h2 : r - y - (lh + gap) = r - (y + (lh + gap)) := by omega
            rw [Nat.mod_eq_sub_mod (by omega), h2]
          omega
    · rw [scanBandsAux_of_le lh gap h (n + 1) y (by omega)]
      simp only [List.not_mem_nil, false_and, exists_false, false_iff]
      omega

/-- C5 counterexample: at intensity 1/2 the code's band alpha is
`int(255 · 0.5) = 127` (truncation), not `round(255 · 0.5) = 128` as the
claim states. -/
theorem scanline_alpha_not_round :
    scanAlpha (1/2) 1 2 4 0 = 127 ∧ round ((255 : ℚ) * (1/2)) = 128 ∧ (127 : ℤ) ≠ 128 := by
  refine ⟨?_, ?_, by decide⟩
  · rw [show scanAlpha (1/2) 1 2 4 0 = pyInt (255 * (1/2)) from if_pos (by decide)]
    rw [pyInt, if_neg (by norm_num)]
    norm_num
  · rw [round_eq]
    norm_num

/-- C5 amended: the pre-blur scanline alpha at row r < h equals
`int(255 × intensity)` — truncation, i.e. ⌊255·intensity⌋ for nonnegative
intensity, not round — on rows whose offset modulo (lineHeight + gap) falls in
the first lineHeight rows, and 0 elsewhere; in particular for lineHeight 1 and
gap 2, rows 0,3,6,… carry positive alpha and the others zero alpha provided
the truncated alpha ⌊255·intensity⌋ is itself positive (truncation can give 0
for small positive intensity). -/
theorem scanline_bands_characterization (i : ℚ) (lh gap h r : ℕ)
    (hi : 0 ≤ i) (hlh : 1 ≤ lh) (hr : r < h) :
    (scanAlpha i lh gap h r = if r % (lh + gap) < lh then ⌊255 * i⌋ else 0) ∧
    (1 ≤ ⌊255 * i⌋ →
      (r % 3 = 0 → 0 < scanAlpha i 1 2 h r) ∧ (r % 3 ≠ 0 → scanAlpha i 1 2 h r = 0)) := by
  have hpy : pyInt (255 * i) = ⌊255 * i⌋ := by
    unfold pyInt
    rw [if_neg (by push_neg; positivity)]
  have key : ∀ lh' gap', 1 ≤ lh' →
      scanAlpha i lh' gap' h r = if r % (lh' + gap') < lh' then ⌊255 * i⌋ else 0 := by
    intro lh' gap' hlh'
    unfold scanAlpha scanBands
    have hiff := scanBandsAux_covers lh' gap' h hlh' h 0 r (by omega) hr
    by_cases hcov : ∃ b ∈ scanBandsAux lh' gap' h h 0, covers b r
    · have hc2 : r % (lh' + gap') < lh' := by
        have h2 := (hiff.mp hcov).2
        simpa using h2
      rw [if_pos hcov, if_pos hc2]
      exact hpy
    · have hc2 : ¬ r % (lh' + gap') < lh' := by
        intro hlt
        exact hcov (hiff.mpr ⟨Nat.zero_le r, by simpa using hlt⟩)
      rw [if_neg hcov, if_neg hc2]
  refine ⟨key lh gap hlh, ?_⟩
  intro hpos
  constructor
  · intro hmod
    rw [key 1 2 (by omega)]
    rw [if_pos (by omega)]
    omega
  · intro hmod
    rw [key 1 2 (by omega)]
    rw [if_neg (by omega)]

/-- Witness for the amended C5 at intensity 1/2, lineHeight 1, gap 2,
height 4, row 3. -/
theorem scanline_bands_characterization_witness :
    ((0 : ℚ) ≤ 1/2 ∧ 1 ≤ 1 ∧ 3 < 4) ∧
    scanAlpha (1/2) 1 2 4 3 = if 3 % (1 + 2) < 1 then ⌊(255 : ℚ) * (1/2)⌋ else 0 :=
  ⟨⟨by norm_num, by decide, by decide⟩,
    (scanline_bands_characterization (1/2) 1 2 4 3 (by norm_num) (by decide) (by decide)).1⟩

/-! ### Vignette mask (`make_vignette_mask`) -/

/-- Pixel (0,0) is at distance exactly `max_dist` from the center. -/
theorem pixDist_corner (w h : ℕ) :
    pixDist w h 0 0 = Real.sqrt ((w / 2 : ℝ) ^ 2 + (h / 2 : ℝ) ^ 2) := by
  unfold pixDist
  norm_num

/-- The squared half-diagonal is positive for a nonempty frame. -/
theorem maxDistSq_pos (w h : ℕ) (hw : 0 < w) :
    (0 : ℝ) < (w / 2 : ℝ) ^ 2 + (h / 2 : ℝ) ^ 2 := by
  have hw1 : (1 : ℝ) ≤ (w : ℝ) := by exact_mod_cast hw
  have : (0 : ℝ) < (w / 2 : ℝ) ^ 2 := by positivity
  positivity

/-- C3 counterexample: for a 3×3 frame at strength 1, the center pixel (1,1)
of the generated mask has value 2/3, not 1.0 — the geometric center (1.5,1.5)
falls between pixels, so no pixel of an odd-sized mask attains 1.0; the gap
(1/3 here) is not floating rounding. -/
theorem vignette_center_not_one :
    vignMask 3 3 1 1 1 = 2 / 3 ∧ (2 / 3 : ℝ) ≠ 1 := by
  constructor
  · unfold vignMask pixDist
    have e1 : (((1 : ℕ) : ℝ) - (3 : ℕ) / 2) ^ 2 + (((1 : ℕ) : ℝ) - (3 : ℕ) / 2) ^ 2
        = 1 / 2 := by norm_num
    have e2 : (((3 : ℕ) : ℝ) / 2) ^ 2 + (((3 : ℕ) : ℝ) / 2) ^ 2 = 9 * (1 / 2) := by norm_num
    rw [e1, e2, Real.sqrt_mul (by norm_num) (1 / 2),
      show Real.sqrt 9 = 3 by
        rw [show (9 : ℝ) = 3 ^ 2 by norm_num, Real.sqrt_sq (by norm_num)]]
    have hne : Real.sqrt (1 / 2) ≠ 0 := by
      have : (0 : ℝ) < Real.sqrt (1 / 2) := Real.sqrt_pos.mpr (by norm_num)
      exact ne_of_gt this
    rw [show Real.sqrt (1 / 2) / (3 * Real.sqrt (1 / 2)) = 1 / 3 by
      field_simp]
    norm_num
  · norm_num

/-- C3 amended: for every w, h > 0 and strength in [0,1], the mask value at
every pixel is clamp(1 − strength·dist/max_dist, 0, 1) (that is its
definition, transcribed from the source); the farthest corner pixel (0,0) has
value exactly 1 − strength; the value is the same in all 3 channels; and the
center value 1.0 is attained at the pixel (w/2, h/2) when both dimensions are
even (for odd dimensions no pixel sits at the geometric center, and on small
frames the center pixel's value falls measurably below 1.0). -/
theorem vignette_corner_center (w h : ℕ) (s : ℝ)
    (hw : 0 < w) (hh : 0 < h) (hs0 : 0 ≤ s) (hs1 : s ≤ 1) :
    vignMask w h s 0 0 = 1 - s ∧
    (∀ k l, w = 2 * k → h = 2 * l → vignMask w h s k l = 1) ∧
    (∀ x y c c', vignMask3 w h s x y c = vignMask3 w h s x y c') := by
  have hMD : (0 : ℝ) < Real.sqrt ((w / 2 : ℝ) ^ 2 + (h / 2 : ℝ) ^ 2) :=
    Real.sqrt_pos.mpr (maxDistSq_pos w h hw)
  refine ⟨?_, ?_, fun x y c c' => rfl⟩
  · unfold vignMask
    rw [pixDist_corner, div_self (ne_of_gt hMD)]
    rw [mul_one]
    rw [max_eq_right (by linarith), min_eq_right (by linarith)]
  · intro k l hk hl
    unfold vignMask pixDist
    have e1 : (((k : ℕ) : ℝ) - (w : ℝ) / 2) = 0 := by
      rw [hk]; push_cast; ring
    have e2 : (((l : ℕ) : ℝ) - (h : ℝ) / 2) = 0 := by
      rw [hl]; push_cast; ring
    rw [e1, e2]
    norm_num

/-- Witness for the amended C3 on a 2×2 frame at strength 1/2. -/
theorem vignette_corner_center_witness :
    ((0 : ℕ) < 2 ∧ (0 : ℝ) ≤ 1/2 ∧ (1/2 : ℝ) ≤ 1) ∧
    vignMask 2 2 (1/2) 0 0 = 1 - 1/2 ∧ vignMask 2 2 (1/2) 1 1 = 1 :=
  ⟨⟨by decide, by norm_num, by norm_num⟩,
    (vignette_corner_center 2 2 (1/2) (by decide) (by decide)
      (by norm_num) (by norm_num)).1,
    (vignette_corner_center 2 2 (1/2) (by decide) (by decide)
      (by norm_num) (by norm_num)).2.1 1 1 rfl rfl⟩

/-- C6: the vignette mask is monotone non-increasing in radial distance: a
pixel strictly closer to the center has a mask value at least as large. -/
theorem vignette_monotone (w h : ℕ) (s : ℝ) (x1 y1 x2 y2 : ℕ)
    (hw : 0 < w) (hh : 0 < h) (hs0 : 0 ≤ s) (hs1 : s ≤ 1)
    (hd : pixDist w h x1 y1 < pixDist w h x2 y2) :
    vignMask w h s x2 y2 ≤ vignMask w h s x1 y1 := by
  have hMD : (0 : ℝ) < Real.sqrt ((w / 2 : ℝ) ^ 2 + (h / 2 : ℝ) ^ 2) :=
    Real.sqrt_pos.mpr (maxDistSq_pos w h hw)
  unfold vignMask
  have hmono : 1 - s * (pixDist w h x2 y2 / Real.sqrt ((w / 2 : ℝ) ^ 2 + (h / 2 : ℝ) ^ 2))
      ≤ 1 - s * (pixDist w h x1 y1 / Real.sqrt ((w / 2 : ℝ) ^ 2 + (h / 2 : ℝ) ^ 2)) := by
    have hdiv : pixDist w h x1 y1 / Real.sqrt ((w / 2 : ℝ) ^ 2 + (h / 2 : ℝ) ^ 2)
        ≤ pixDist w h x2 y2 / Real.sqrt ((w / 2 : ℝ) ^ 2 + (h / 2 : ℝ) ^ 2) :=
      div_le_div_of_nonneg_right hd.le hMD.le
    nlinarith [mul_le_mul_of_nonneg_left hdiv hs0]
  exact min_le_min le_rfl (max_le_max le_rfl hmono)

/-- Witness for C6: on a 2×2 frame, the pixel (1,1) lies at the center and
(0,0) at the corner, so the former's mask value dominates. -/
theorem vignette_monotone_witness :
    pixDist 2 2 1 1 < pixDist 2 2 0 0 ∧
    vignMask 2 2 (1/2) 0 0 ≤ vignMask 2 2 (1/2) 1 1 := by
  have h1 : pixDist 2 2 1 1 = 0 := by
    unfold pixDist
    rw [show (((1 : ℕ) : ℝ) - (2 : ℕ) / 2) ^ 2 + (((1 : ℕ) : ℝ) - (2 : ℕ) / 2) ^ 2
        = 0 by norm_num]
    exact Real.sqrt_zero
  have h2 : (0 : ℝ) < pixDist 2 2 0 0 := by
    unfold pixDist
    apply Real.sqrt_pos.mpr
    norm_num
  have hd : pixDist 2 2 1 1 < pixDist 2 2 0 0 := by rw [h1]; exact h2
  exact ⟨hd, vignette_monotone 2 2 (1/2) 1 1 0 0 (by decide) (by decide)
    (by norm_num) (by norm_num) hd⟩

/-! ### Claim C4: range preservation across all stages -/

/-- The rational clip lands in [0, 255]. -/
theorem clip8_bounds (x : ℚ) : 0 ≤ clip8 x ∧ clip8 x ≤ 255 := by
  unfold clip8
  constructor
  · exact le_min (by norm_num) (le_max_left 0 x)
  · exact min_le_left 255 _

/-- The contrast stage's sample always lands in [0, 255]. -/
theorem contrastSample_bounds (v : ℤ) : 0 ≤ contrastSample v ∧ contrastSample v ≤ 255 := by
  unfold contrastSample
  obtain ⟨h0, h1⟩ := clip8_bounds (128 + 53/50 * ((v : ℚ) - 128) + 4)
  constructor
  · exact Int.le_floor.mpr (by exact_mod_cast h0)
  · have := (Int.floor_le (clip8 (128 + 53/50 * ((v : ℚ) - 128) + 4))).trans h1
    exact_mod_cast this

/-- The integer clamp lands in [0, 255]. -/
theorem clamp8Z_bounds (x : ℤ) : 0 ≤ clamp8Z x ∧ clamp8Z x ≤ 255 := by
  unfold clamp8Z
  omega

/-- The composite of a black source sample with alpha in [0,255] over an
8-bit destination sample lands in [0, 255]. -/
theorem compositeSample_bounds (a d : ℤ)
    (ha : 0 ≤ a ∧ a ≤ 255) (hd : 0 ≤ d ∧ d ≤ 255) :
    0 ≤ compositeSample 0 a d ∧ compositeSample 0 a d ≤ 255 := by
  unfold compositeSample
  rw [round_eq]
  have hv0 : (0 : ℤ) ≤ 0 * a + d * (255 - a) := by nlinarith [ha.1, ha.2, hd.1, hd.2]
  have hv1 : 0 * a + d * (255 - a) ≤ 255 * 255 := by nlinarith [ha.1, ha.2, hd.1, hd.2]
  have hq0 : (0 : ℚ) ≤ ((0 * a + d * (255 - a) : ℤ) : ℚ) / 255 := by
    apply div_nonneg _ (by norm_num)
    exact_mod_cast hv0
  have hq1 : ((0 * a + d * (255 - a) : ℤ) : ℚ) / 255 ≤ 255 := by
    rw [div_le_iff₀ (by norm_num)]
    exact_mod_cast hv1
  constructor
  · refine Int.le_floor.mpr ?_
    push_cast
    push_cast at hq0
    linarith
  · have : ⌊((0 * a + d * (255 - a) : ℤ) : ℚ) / 255 + 1/2⌋ < 256 := by
      apply Int.floor_lt.mpr
      push_cast
      push_cast at hq1
      linarith
    omega

/-- The vignette stage's sample always lands in [0, 255], whatever the mask
value. -/
theorem vignetteSample_bounds (m : ℝ) (v : ℤ) :
    0 ≤ vignetteSample m v ∧ vignetteSample m v ≤ 255 := by
  unfold vignetteSample
  have h0 : (0 : ℝ) ≤ min 255 (max 0 ((v : ℝ) / 255 * m * 255)) :=
    le_min (by norm_num) (le_max_left 0 _)
  have h1 : min 255 (max 0 ((v : ℝ) / 255 * m * 255)) ≤ 255 := min_le_left 255 _
  constructor
  · exact Int.le_floor.mpr (by exact_mod_cast h0)
  · have := (Int.floor_le (min 255 (max 0 ((v : ℝ) / 255 * m * 255)))).trans h1
    exact_mod_cast this

/-- C4: on any valid 8-bit input frame, with any int16 grain noise, any blur
that keeps 8-bit images 8-bit, any 8-bit scanline alpha and any vignette
mask, the output of every one of the six stages stays within [0, 255] per
channel; every stage of the embedding is a total function — the clamps absorb
all overflow and underflow. -/
theorem effect_range_preservation (w : ℕ) (img noise : Img) (B : Img → Img)
    (scanA : ℕ → ℕ → ℤ) (mask : ℕ → ℕ → ℝ)
    (himg : ∀ y x c, 0 ≤ img y x c ∧ img y x c ≤ 255)
    (hB : ∀ j : Img, (∀ y x c, 0 ≤ j y x c ∧ j y x c ≤ 255) →
        ∀ y x c, 0 ≤ B j y x c ∧ B j y x c ≤ 255)
    (hscan : ∀ y x, 0 ≤ scanA y x ∧ scanA y x ≤ 255) :
    (∀ y x c, 0 ≤ chromAb w img y x c ∧ chromAb w img y x c ≤ 255) ∧
    (∀ y x c, 0 ≤ contrastStage (chromAb w img) y x c ∧
        contrastStage (chromAb w img) y x c ≤ 255) ∧
    (∀ y x c, 0 ≤ grainStage noise (contrastStage (chromAb w img)) y x c ∧
        grainStage noise (contrastStage (chromAb w img)) y x c ≤ 255) ∧
    (∀ y x c,
        0 ≤ unsharpStage (B (grainStage noise (contrastStage (chromAb w img))))
            (grainStage noise (contrastStage (chromAb w img))) y x c ∧
        unsharpStage (B (grainStage noise (contrastStage (chromAb w img))))
            (grainStage noise (contrastStage (chromAb w img))) y x c ≤ 255) ∧
    (∀ y x c, 0 ≤ effectPre w noise B scanA img y x c ∧
        effectPre w noise B scanA img y x c ≤ 255) ∧
    (∀ y x c, 0 ≤ vignetteStage mask (effectPre w noise B scanA img) y x c ∧
        vignetteStage mask (effectPre w noise B scanA img) y x c ≤ 255) := by
  have h1 : ∀ y x c, 0 ≤ chromAb w img y x c ∧ chromAb w img y x c ≤ 255 := by
    intro y x c
    unfold chromAb npRoll
    split
    · exact himg _ _ _
    · split
      · exact himg _ _ _
      · exact himg _ _ _
  have h2 : ∀ y x c, 0 ≤ contrastStage (chromAb w img) y x c ∧
      contrastStage (chromAb w img) y x c ≤ 255 := by
    intro y x c
    exact contrastSample_bounds _
  have h3 : ∀ y x c, 0 ≤ grainStage noise (contrastStage (chromAb w img)) y x c ∧
      grainStage noise (contrastStage (chromAb w img)) y x c ≤ 255 := by
    intro y x c
    exact clamp8Z_bounds _
  have h4 : ∀ y x c,
      0 ≤ unsharpStage (B (grainStage noise (contrastStage (chromAb w img))))
          (grainStage noise (contrastStage (chromAb w img))) y x c ∧
      unsharpStage (B (grainStage noise (contrastStage (chromAb w img))))
          (grainStage noise (contrastStage (chromAb w img))) y x c ≤ 255 := by
    intro y x c
    unfold unsharpStage unsharpSample
    split
    · exact clamp8Z_bounds _
    · exact h3 y x c
  have h5 : ∀ y x c, 0 ≤ effectPre w noise B scanA img y x c ∧
      effectPre w noise B scanA img y x c ≤ 255 := by
    intro y x c
    show 0 ≤ compositeSample 0 (scanA y x) _ ∧ compositeSample 0 (scanA y x) _ ≤ 255
    exact compositeSample_bounds _ _ (hscan y x) (h4 y x c)
  exact ⟨h1, h2, h3, h4, h5, fun y x c => vignetteSample_bounds _ _⟩

/-- Witness for C4 on a concrete frame: constant 128, zero noise, identity
blur, constant scanline alpha 20, and the factory's vignette mask. -/
theorem effect_range_preservation_witness :
    (0 : ℤ) ≤ effectPre 2 (fun _ _ _ => 0) id (fun _ _ => 20) (fun _ _ _ => 128) 0 0 0 ∧
    effectPre 2 (fun _ _ _ => 0) id (fun _ _ => 20) (fun _ _ _ => 128) 0 0 0 ≤ 255 :=
  (effect_range_preservation 2 (fun _ _ _ => 128) (fun _ _ _ => 0) id
    (fun _ _ => 20) (vignMask 2 2 (9/20))
    (fun _ _ _ => ⟨by norm_num, by norm_num⟩)
    (fun j hj => hj)
    (fun _ _ => ⟨by norm_num, by norm_num⟩)).2.2.2.2.1 0 0 0

/-! ### Claim C7: vignette-only pass on a solid white 100×100 frame -/

/-- Square root of a product with a square factor. -/
theorem sqrt_sq_mul (a b : ℝ) (ha : 0 ≤ a) :
    Real.sqrt (a ^ 2 * b) = a * Real.sqrt b := by
  rw [Real.sqrt_mul (by positivity), Real.sqrt_sq ha]

/-- The corner pixel (0,0) of the vignette mask has value exactly
1 − strength. -/
theorem vignMask_corner00 (w h : ℕ) (s : ℝ) (hw : 0 < w)
    (hs0 : 0 ≤ s) (hs1 : s ≤ 1) : vignMask w h s 0 0 = 1 - s := by
  have hMD : (0 : ℝ) < Real.sqrt ((w / 2 : ℝ) ^ 2 + (h / 2 : ℝ) ^ 2) :=
    Real.sqrt_pos.mpr (maxDistSq_pos w h hw)
  unfold vignMask
  rw [pixDist_corner, div_self (ne_of_gt hMD), mul_one,
    max_eq_right (by linarith), min_eq_right (by linarith)]

/-- Numeric bracketing of sqrt(4901)/sqrt(5000), the corner ratio of the
pixels (99,0) and (0,99) of a 100×100 vignette mask. -/
theorem ratio4901_bounds :
    252/255 < Real.sqrt 4901 / Real.sqrt 5000 ∧
    Real.sqrt 4901 / Real.sqrt 5000 ≤ 254/255 := by
  have h5000 : (0:ℝ) < Real.sqrt 5000 := Real.sqrt_pos.mpr (by norm_num)
  have hrnn : (0:ℝ) ≤ Real.sqrt 4901 / Real.sqrt 5000 := by positivity
  have hsq : (Real.sqrt 4901 / Real.sqrt 5000)^2 = 4901/5000 := by
    rw [div_pow, Real.sq_sqrt (by norm_num), Real.sq_sqrt (by norm_num)]
  set r := Real.sqrt 4901 / Real.sqrt 5000 with hrdef
  constructor
  · by_contra hcon
    push_neg at hcon
    have hle : r^2 ≤ (252/255)^2 := by nlinarith
    rw [hsq] at hle
    norm_num at hle
  · by_contra hcon
    push_neg at hcon
    have hge : (254/255)^2 < r^2 := by nlinarith
    rw [hsq] at hge
    norm_num at hge

/-- On a white sample, the vignette stage computes ⌊255·m⌋ for mask value
m in [0,1]. -/
theorem vignetteSample_white (m : ℝ) (h0 : 0 ≤ m) (h1 : m ≤ 1) :
    vignetteSample m 255 = ⌊255 * m⌋ := by
  unfold vignetteSample
  have e : ((255 : ℤ) : ℝ) / 255 * m * 255 = 255 * m := by push_cast; ring
  rw [e, max_eq_right (by positivity), min_eq_right (by linarith)]

/-- The 100×100 mask at strength 1/2, pixel (99,99): exactly 51/100. -/
theorem vignMask100_9999 : vignMask 100 100 (1/2) 99 99 = 51/100 := by
  unfold vignMask pixDist
  have e1 : (((99:ℕ):ℝ) - (100:ℕ)/2)^2 + (((99:ℕ):ℝ) - (100:ℕ)/2)^2 = 49^2 * 2 := by
    norm_num
  have e2 : (((100:ℕ):ℝ)/2)^2 + (((100:ℕ):ℝ)/2)^2 = 50^2 * 2 := by norm_num
  rw [e1, e2, sqrt_sq_mul 49 2 (by norm_num), sqrt_sq_mul 50 2 (by norm_num)]
  have h2 : Real.sqrt 2 ≠ 0 := ne_of_gt (Real.sqrt_pos.mpr (by norm_num))
  rw [show (49:ℝ) * Real.sqrt 2 / (50 * Real.sqrt 2) = 49/50 by field_simp; ring]
  norm_num

/-- C7 counterexample: the corner pixel (99,99) of the vignette-only pass on
solid white at strength 1/2 comes out at 130, outside the claimed
128 ± 1 window — the four corner pixels are not equidistant from the
half-integer center (50.0, 50.0), and (99,99) is a full 49√2 < 50√2 away. -/
theorem vignette_white_corner_counterexample :
    vignetteStage (vignMask 100 100 (1/2)) (fun _ _ _ => 255) 99 99 0 = 130 ∧
    ¬(|(130 : ℤ) - 128| ≤ 1) := by
  constructor
  · show vignetteSample (vignMask 100 100 (1/2) 99 99) 255 = 130
    rw [vignMask100_9999, vignetteSample_white (51/100) (by norm_num) (by norm_num)]
    rw [show (255:ℝ) * (51/100) = 2601/20 by norm_num]
    rw [Int.floor_eq_iff]
    constructor <;> norm_num
  · decide

/-- C7 amended: on the vignette-only white pass at strength 1/2, the center
pixel stays 255; the corner pixels come out at 127 (pixel (0,0), within ±1 of
128), 128 (pixels (99,0) and (0,99)), and 130 (pixel (99,99)) — all within
±2 of round(255 × 0.5) = 128, but not all within ±1. -/
theorem vignette_white_values :
    vignetteStage (vignMask 100 100 (1/2)) (fun _ _ _ => 255) 50 50 0 = 255 ∧
    vignetteStage (vignMask 100 100 (1/2)) (fun _ _ _ => 255) 0 0 0 = 127 ∧
    vignetteStage (vignMask 100 100 (1/2)) (fun _ _ _ => 255) 0 99 0 = 128 ∧
    vignetteStage (vignMask 100 100 (1/2)) (fun _ _ _ => 255) 99 0 0 = 128 ∧
    vignetteStage (vignMask 100 100 (1/2)) (fun _ _ _ => 255) 99 99 0 = 130 ∧
    (|(127:ℤ) - 128| ≤ 2 ∧ |(128:ℤ) - 128| ≤ 2 ∧ |(130:ℤ) - 128| ≤ 2) := by
  have hcorner128 : ∀ x y : ℕ,
      (((x:ℕ):ℝ) - (100:ℕ)/2)^2 + (((y:ℕ):ℝ) - (100:ℕ)/2)^2 = (4901:ℝ) →
      vignetteSample (vignMask 100 100 (1/2) x y) 255 = 128 := by
    intro x y hin
    obtain ⟨hr1, hr2⟩ := ratio4901_bounds
    have hrnn : (0:ℝ) ≤ Real.sqrt 4901 / Real.sqrt 5000 := by positivity
    have hm : vignMask 100 100 (1/2) x y
        = 1 - 1/2 * (Real.sqrt 4901 / Real.sqrt 5000) := by
      unfold vignMask pixDist
      rw [hin, show (((100:ℕ):ℝ)/2)^2 + (((100:ℕ):ℝ)/2)^2 = (5000:ℝ) by norm_num]
      rw [max_eq_right (by linarith), min_eq_right (by linarith)]
    rw [hm, vignetteSample_white _ (by linarith) (by linarith)]
    rw [Int.floor_eq_iff]
    push_cast
    constructor
    · nlinarith
    · nlinarith
  refine ⟨?_, ?_, ?_, ?_, ?_, by decide, by decide, by decide⟩
  · show vignetteSample (vignMask 100 100 (1/2) 50 50) 255 = 255
    have hm : vignMask 100 100 (1/2) 50 50 = 1 := by
      unfold vignMask pixDist
      rw [show (((50:ℕ):ℝ) - (100:ℕ)/2)^2 + (((50:ℕ):ℝ) - (100:ℕ)/2)^2 = (0:ℝ) by norm_num,
        Real.sqrt_zero]
      norm_num
    rw [hm, vignetteSample_white 1 (by norm_num) (by norm_num)]
    norm_num
  · show vignetteSample (vignMask 100 100 (1/2) 0 0) 255 = 127
    rw [vignMask_corner00 100 100 (1/2) (by decide) (by norm_num) (by norm_num)]
    rw [vignetteSample_white _ (by norm_num) (by norm_num)]
    rw [show (255:ℝ) * (1 - 1/2) = 255/2 by norm_num]
    rw [Int.floor_eq_iff]
    constructor <;> norm_num
  · show vignetteSample (vignMask 100 100 (1/2) 99 0) 255 = 128
    exact hcorner128 99 0 (by norm_num)
  · show vignetteSample (vignMask 100 100 (1/2) 0 99) 255 = 128
    exact hcorner128 0 99 (by norm_num)
  · show vignetteSample (vignMask 100 100 (1/2) 99 99) 255 = 130
    rw [vignMask100_9999, vignetteSample_white (51/100) (by norm_num) (by norm_num)]
    rw [show (255:ℝ) * (51/100) = 2601/20 by norm_num]
    rw [Int.floor_eq_iff]
    constructor <;> norm_num

/-! ### Claim C8: fresh output frame, input frame not mutated -/

/-- A numpy/PIL frame with explicit dimensions. -/
structure NpFrame where
  height : ℕ
  width : ℕ
  data : Img

/-- The per-frame transform at the frame level.  Every stage preserves the
shape: np.roll keeps it, np.stack of three H×W channel planes rebuilds H×W×3,
the PIL round-trips keep the size, and the vignette multiply broadcasts the
mask of the bound resolution — so the output frame carries the input
dimensions. -/
noncomputable def effectFrame (noise : Img) (B : Img → Img) (scanA : ℕ → ℕ → ℤ)
    (f : NpFrame) : NpFrame where
  height := f.height
  width := f.width
  data := vignetteStage (vignMask f.width f.height (9/20))
    (effectPre f.width noise B scanA f.data)

/-- The scanline overlay as an RGBA buffer: black with alpha `scanA`. -/
def scanOverlayImg (scanA : ℕ → ℕ → ℤ) : Img := fun y x c =>
  if c = 3 then scanA y x else 0

/-- The buffers live during one call of `effect`, in allocation order.
Index 0 is the caller's input frame.  `frame.astype(np.int16)` allocates a
copy (index 1); the np.roll/np.stack of the channel shift (2), the contrast
arithmetic with its clip (3), the grain addition with its clip (4), the PIL
round-trip through UnsharpMask (5) and `pil.convert("RGBA")` (6) all allocate
fresh buffers, as does `scanline_img.convert("RGBA")` (7).
`base_rgba.alpha_composite(scan)` is the single in-place write of the call:
it overwrites buffer 6.  The final `convert("RGB")` (8) and the numpy
vignette arithmetic (9) allocate again. -/
noncomputable def effectStore (w h : ℕ) (noise : Img) (B : Img → Img)
    (scanA : ℕ → ℕ → ℤ) (f : Img) : List Img :=
  let img := f
  let shifted := chromAb w img
  let contrasted := contrastStage shifted
  let grained := grainStage noise contrasted
  let sharp := unsharpStage (B grained) grained
  let baseRgba := sharp
  let store := [f, img, shifted, contrasted, grained, sharp, baseRgba, scanOverlayImg scanA]
  let composited := scanStage scanA baseRgba
  store.set 6 composited ++ [composited, vignetteStage (vignMask w h (9/20)) composited]

/-- C8: the transform returns a new frame of identical dimensions and does
not mutate the input: at the buffer level every operation of the call
allocates a fresh buffer except `alpha_composite`, whose in-place write
targets the freshly allocated RGBA copy at index 6, so buffer 0 — the
caller's frame — still holds exactly its original samples when the call
returns. -/
theorem effect_fresh_frame_same_dims (noise : Img) (B : Img → Img)
    (scanA : ℕ → ℕ → ℤ) (f : NpFrame) :
    (effectFrame noise B scanA f).height = f.height ∧
    (effectFrame noise B scanA f).width = f.width ∧
    (effectStore f.width f.height noise B scanA f.data).head? = some f.data :=
  ⟨rfl, rfl, rfl⟩

/-! ### Claim C9: no configuration-time parameter validation -/

/-- C9 counterexample: calling the vignette generator with strength 2 —
outside the documented [0,1] domain — is not rejected with a description of
the violated bound; the generator proceeds and produces a mask (the corner
pixel value is clamped to 0). -/
theorem out_of_range_strength_not_rejected : vignMask 1 1 2 0 0 = 0 := by
  have hMD : (0 : ℝ) < Real.sqrt ((1 / 2 : ℝ) ^ 2 + (1 / 2 : ℝ) ^ 2) := by
    apply Real.sqrt_pos.mpr
    norm_num
  unfold vignMask
  rw [show (((1:ℕ) : ℝ) / 2) ^ 2 + (((1:ℕ) : ℝ) / 2) ^ 2
      = ((1 / 2 : ℝ)) ^ 2 + ((1 / 2 : ℝ)) ^ 2 by norm_num]
  rw [show pixDist 1 1 0 0 = Real.sqrt ((1 / 2 : ℝ) ^ 2 + (1 / 2 : ℝ) ^ 2) by
    unfold pixDist
    norm_num]
  rw [div_self (ne_of_gt hMD)]
  norm_num

/-- C9 amended: the source performs no parameter validation anywhere — the
generators and the pipeline are total functions of their parameters.
Out-of-range values are absorbed by the clamps instead of being rejected:
for every strength, in range or not, every vignette mask value still lies in
[0, 1]. -/
theorem generators_total_no_validation (w h : ℕ) (s : ℝ) (x y : ℕ) :
    0 ≤ vignMask w h s x y ∧ vignMask w h s x y ≤ 1 := by
  unfold vignMask
  exact ⟨le_min (by norm_num) (le_max_left 0 _), min_le_left 1 _⟩

end ProcessVideo
